import Mathlib

/-
  Verification of the knowhere faiss-HNSW index node
  (src/index/hnsw/faiss_hnsw.cc).

  The file shallowly embeds the parts of the translation unit that the
  checked properties talk about: the error-mapping helpers, the MV
  (materialized-view) partitioning of a training set by SCALAR_INFO, the
  partition-combining heuristic, the MV serialization header, the
  brute-force fallback dispatch inside Search, the iterator construction,
  and the raw-data reconstruction rules of GetVectorByIds.

  Machine integers of the source are modelled as Nat (with explicit
  truncation mod 2^32 where the source casts to uint32_t); float
  comparisons against the constant kHnswSearchKnnBFFilterThreshold are
  modelled over the rationals; the binary I/O primitives (write_value /
  write_vector / read_value / read_vector) are treated as the given codec
  the source calls into, i.e. a stream is a list of codec-level tokens.
-/

namespace Knowhere

/-- knowhere::Status (the subset used by faiss_hnsw.cc). -/
inductive Status
  | success
  | empty_index
  | index_not_trained
  | invalid_args
  | invalid_metric_type
  | invalid_binary_set
  | invalid_serialized_index_type
  | invalid_index_error
  | not_implemented
  | faiss_inner_error
  deriving DecidableEq, Repr

/-! ### Substring search (std::string::find of is_faiss_fourcc_error) -/

/-- Whether the first character list is an initial segment of the second. -/
def charsLead : List Char → List Char → Bool
  | [], _ => true
  | _ :: _, [] => false
  | p :: ps, c :: cs => p == c && charsLead ps cs

/-- Whether the pattern (second argument) occurs inside the first list,
    i.e. std::string::find(pat) != npos. -/
def charsHaveSub : List Char → List Char → Bool
  | [], pat => pat.isEmpty
  | s@(_ :: rest), pat => charsLead pat s || charsHaveSub rest pat

/-- msg.find(pat) != std::string::npos on strings. -/
def containsSub (msg pat : String) : Bool :=
  charsHaveSub msg.toList pat.toList

/-- The two needles checked by is_faiss_fourcc_error. -/
def fourccNeedleA : String := "Index type"

def fourccNeedleB : String := "not recognized"

/-- is_faiss_fourcc_error (faiss_hnsw.cc lines 155-166): the argument is
    the what() text of a caught exception, none standing for a null
    pointer. -/
def is_faiss_fourcc_error (what : Option String) : Bool :=
  match what with
  | none => false
  | some msg => containsSub msg fourccNeedleA && containsSub msg fourccNeedleB

/-- Outcome of reading a serialized index stream: the read either
    completes, or throws an exception carrying a what() message. -/
inductive ReadOutcome
  | ok
  | thrown (what : Option String)
  deriving DecidableEq

/-- The status returned by BaseFaissRegularIndexNode::Deserialize /
    DeserializeFromFile (lines 207-296): success when the read completes,
    and on an exception the fourCC check decides between
    invalid_serialized_index_type and faiss_inner_error. -/
def deserializeStatus (r : ReadOutcome) : Status :=
  match r with
  | .ok => .success
  | .thrown w =>
      if is_faiss_fourcc_error w then .invalid_serialized_index_type else .faiss_inner_error

/-- A concrete fourCC-style exception message, as thrown by
    faiss::read_index on an unknown header. -/
def fourccSampleMsg : String := "Index type 0x1234 (\"abcd\") not recognized"

/-- A concrete non-fourCC exception message. -/
def otherSampleMsg : String := "Error in virtual void faiss::Index::search"

/-! ### Iterator construction (FaissHnswIterator, lines 785-885) -/

/-- The two values the constructor can give to accumulated_alpha:
    std::numeric_limits of float max (no restriction on admitting
    filtered-out nodes) or 1.0f (tight). -/
inductive AlphaInit
  | unrestricted
  | tight
  deriving DecidableEq, Repr

/-- accumulated_alpha initialization (lines 795-798). countBits is
    bitset_in.count(), the number of SET bits of the filter bitset - in
    knowhere a set bit marks a filtered-OUT row; ntotal is the
    sub-index row count; thr is kHnswSearchKnnBFFilterThreshold. -/
def iteratorInitialAlpha (countBits ntotal : Nat) (thr : ℚ) : AlphaInit :=
  if (countBits : ℚ) ≥ (ntotal : ℚ) * thr then .unrestricted else .tight

/-- Modelled from the spec: the claim reads the same rule with the count
    of filter-PASSING rows in place of bitset.count(). -/
def claimInitialAlpha (passing ntotal : Nat) (thr : ℚ) : AlphaInit :=
  if (passing : ℚ) ≥ (ntotal : ℚ) * thr then .unrestricted else .tight

/-! ### PQ / PRQ training row check -/

/-- Early row-count check of BaseFaissRegularIndexHNSWPQNode::TrainInternal
    (lines 2403-2407): some status means training returns early with that
    status, none means the check passes. -/
def hnswPqTrainRowsCheck (rows nbits : Nat) : Option Status :=
  if rows < 1 <<< nbits then some .faiss_inner_error else none

/-- The same check in BaseFaissRegularIndexHNSWPRQNode::TrainInternal
    (lines 2678-2682). -/
def hnswPrqTrainRowsCheck (rows nbits : Nat) : Option Status :=
  if rows < 1 <<< nbits then some .faiss_inner_error else none

/-! ### Brute-force fallback inside Search (lines 1324-1357) -/

/-- real_topk: how many entries of the per-query id buffer are valid
    (the loop skips negative ids and counts the rest). -/
def realTopk (local_ids : List Int) : Nat :=
  (local_ids.filter (fun id => !(decide (id < 0)))).length

/-- bf_search_needed: the brute-force pass runs when fewer than k valid
    ids were produced, more rows pass the filter than were produced, and
    a brute-force wrapper exists (it exists iff the main pass was the
    graph search). bitsetSize - bitsetCount is the number of
    filter-passing rows. -/
def bfSearchNeeded (k : Nat) (local_ids : List Int) (bitsetSize bitsetCount : Nat)
    (hasBfWrapper : Bool) : Bool :=
  decide (realTopk local_ids < k) && decide (realTopk local_ids < bitsetSize - bitsetCount) &&
    hasBfWrapper

/-- One query of Search: the main pass fills the result buffer; the
    brute-force pass overwrites it exactly when bf_search_needed. -/
def searchOneQuery (k : Nat) (mainResult bfResult : List Int) (bitsetSize bitsetCount : Nat)
    (hasBfWrapper : Bool) : List Int :=
  if bfSearchNeeded k mainResult bitsetSize bitsetCount hasBfWrapper then bfResult else mainResult

/-! ### Index taxonomy and raw-data reconstruction -/

/-- knowhere::DataFormatEnum. -/
inductive DataFormatEnum
  | fp32
  | fp16
  | bf16
  | int8
  deriving DecidableEq, Repr

/-- faiss::ScalarQuantizer::QuantizerType, restricted to the cases
    distinguished by get_index_data_format. -/
inductive SQQtype
  | qtFp16
  | qtBf16
  | qtBit8DirectSigned
  | qtOtherSQ
  deriving DecidableEq, Repr

/-- The runtime type of a faiss index, as far as the dynamic_casts in
    faiss_hnsw.cc distinguish it. -/
inductive FIndex
  | flat
  | sq (qt : SQQtype)
  | hnsw (storage : FIndex)
  | refineWrap (base : FIndex) (refineIdx : FIndex)
  | otherIndex
  deriving DecidableEq, Repr

/-- get_index_data_format (lines 654-685); none is both the nullptr
    input and the nullopt result. -/
def get_index_data_format : Option FIndex → Option DataFormatEnum
  | none => none
  | some .flat => some .fp32
  | some (.sq .qtBf16) => some .bf16
  | some (.sq .qtFp16) => some .fp16
  | some (.sq .qtBit8DirectSigned) => some .int8
  | some (.sq .qtOtherSQ) => none
  | some _ => none

/-- GetIndexToReconstructRawDataFrom (lines 1685-1730) for one non-null
    partition index: a refine wrapper exposes its refine index, a plain
    HNSW exposes its storage, anything else has no raw data; in both
    live cases the exposed index must store the node data format. -/
def getIndexToReconstructRawDataFrom (idx : FIndex) (data_format : DataFormatEnum) :
    Option FIndex :=
  match idx with
  | .refineWrap _ r =>
      if get_index_data_format (some r) = some data_format then some r else none
  | .hnsw s =>
      if get_index_data_format (some s) = some data_format then some s else none
  | _ => none

/-- A row of the GetVectorByIds result: for an fp32 node the fp32
    reconstruction buffer is returned directly; for any other node
    format the row goes through the fp32-to-format conversion codec. -/
inductive OutRow
  | raw (xs : List ℚ)
  | conv (df : DataFormatEnum) (xs : List ℚ)
  deriving DecidableEq

/-- Value-level skeleton of GetVectorByIds (lines 1069-1192) over one
    partition: recon id is the fp32 row the storage reconstructs for id.
    The call errors with invalid_index_error when some partition has no
    raw-data source; otherwise fp32 nodes copy the reconstruction and
    every other node format converts it row by row. -/
def getVectorByIds (indexes : List FIndex) (data_format : DataFormatEnum)
    (recon : Nat → List ℚ) (ids : List Nat) : Except Status (List OutRow) :=
  if indexes.isEmpty then .error .empty_index
  else if (indexes.map (fun idx => getIndexToReconstructRawDataFrom idx data_format)).any
      Option.isNone then
    .error .invalid_index_error
  else
    match data_format with
    | .fp32 => .ok (ids.map (fun id => .raw (recon id)))
    | df => .ok (ids.map (fun id => .conv df (recon id)))

/-- Modelled from the spec: whether the resolved storage of an index
    "preserves raw data" in the claim wording - flat storage always,
    scalar-quantized storage only when its qtype matches the node data
    format, the refine index standing in when a refine wrapper is
    present. -/
def claimStorageRaw : FIndex → DataFormatEnum → Bool
  | .flat, _ => true
  | .sq .qtFp16, df => df == .fp16
  | .sq .qtBf16, df => df == .bf16
  | .sq .qtBit8DirectSigned, df => df == .int8
  | _, _ => false

/-- Modelled from the spec: the claim-side raw-data predicate on a whole
    partition index. -/
def claimPreservesRawData (idx : FIndex) (df : DataFormatEnum) : Bool :=
  match idx with
  | .refineWrap _ r => claimStorageRaw r df
  | .hnsw s => claimStorageRaw s df
  | _ => false

/-! ### AnnIterator refine setup (lines 1846-1861, 810-849) -/

/-- dynamic_cast to faiss::IndexRefine succeeds. -/
def isRefineIndex : FIndex → Bool
  | .refineWrap _ _ => true
  | _ => false

/-- should_use_refine / iterator_refine_ratio of AnnIterator: the
    configured iterator_refine_ratio (defaulted to 0.5) is used only when
    the selected partition index is refine-wrapped, else 0. -/
def annIteratorRefineFactor (idx : FIndex) (cfgRatio : Option ℚ) : ℚ :=
  if isRefineIndex idx then cfgRatio.getD (1 / 2) else 0

/-- FaissHnswIterator constructor: a refine distance computer
    (workspace.qdis_refine) is installed iff the index is refine-wrapped
    and the refine factor is nonzero. -/
def iteratorHasRefineComputer (idx : FIndex) (ratio : ℚ) : Bool :=
  isRefineIndex idx && !(decide (ratio = 0))

/-! ### Partition selection by scalar info (lines 384-409) -/

/-- bitset.count(): the number of set bits (a set bit marks a
    filtered-out row). -/
def countSetBits (bits : List Bool) : Nat := (bits.filter id).length

/-- bitset.get_first_valid_index(): position of the first clear bit. -/
def firstValidIdx (bits : List Bool) : Nat := bits.findIdx (fun b => !b)

/-- std::upper_bound over a vector: the number of leading elements that
    are at most v, i.e. the index of the first element greater than v
    for a sorted vector. -/
def upperBoundIdx (l : List Nat) (v : Nat) : Nat :=
  (l.takeWhile (fun x => decide (x ≤ v))).length

/-- The internal offset the first valid bit resolves to: the
    label_to_internal_offset hop applies exactly when the bitset does not
    carry its own out-ids mapping. -/
def resolveFirstValid (bits : List Bool) (hasOutIds : Bool)
    (label_to_internal_offset : List Nat) : Nat :=
  if !hasOutIds then label_to_internal_offset.getD (firstValidIdx bits) 0
  else firstValidIdx bits

/-- getIndexToSearchByScalarInfo (lines 384-409); the failure value is -1. -/
def getIndexToSearchByScalarInfo (numIndexes : Nat) (bits : List Bool) (hasOutIds : Bool)
    (label_to_internal_offset index_rows_sum : List Nat) : Int :=
  if numIndexes = 1 then 0
  else if bits.isEmpty then -1
  else if countSetBits bits = bits.length then 0
  else
    let fv := resolveFirstValid bits hasOutIds label_to_internal_offset
    let it := upperBoundIdx index_rows_sum fv
    if it = index_rows_sum.length then -1
    else (it : Int) - 1

/-- The dispatch shared by Search / RangeSearch / AnnIterator /
    CalcDistByIDs: a negative partition id becomes the invalid_args
    "partition key value not correctly set" error, otherwise the call
    proceeds on the selected partition. -/
def selectPartitionToSearch (numIndexes : Nat) (bits : List Bool) (hasOutIds : Bool)
    (label_to_internal_offset index_rows_sum : List Nat) : Except Status Nat :=
  let r := getIndexToSearchByScalarInfo numIndexes bits hasOutIds label_to_internal_offset
    index_rows_sum
  if r < 0 then .error .invalid_args else .ok r.toNat

/-! ### TrainIndexByScalarInfo (lines 1732-1770) -/

/-- scalar_info[j]: the bucket of external row ids for scalar id j. -/
def fetchBucket (scalar_info : List (List Nat)) (j : Nat) : List Nat :=
  scalar_info.getD j []

/-- The label vector of one partition: the concatenation of its group's
    source buckets in traversal order (the inner loops of lines
    1750-1762 fill labels[i] bucket by bucket). -/
def partitionLabels (scalar_info : List (List Nat)) (group : List Nat) : List Nat :=
  group.flatMap (fetchBucket scalar_info)

/-- The per-partition label vectors built by TrainIndexByScalarInfo over
    the combined groups tmp_combined_scalar_ids. -/
def mvLabels (scalar_info combined : List (List Nat)) : List (List Nat) :=
  combined.map (partitionLabels scalar_info)

/-- index_rows_sum: index_rows_sum[i+1] = index_rows_sum[i] +
    partition_size (line 1747), the accumulator started at acc. -/
def mvRowsSum : List (List Nat) → Nat → List Nat
  | [], acc => [acc]
  | part :: rest, acc => acc :: mvRowsSum rest (acc + part.length)

/-- The writes label_to_internal_offset[label] = index_rows_sum[i] +
    cur_size + m (line 1759), performed over the labels in global
    traversal order with offsets counted from k. -/
def writeOffsets : List Nat → Nat → List Nat → List Nat
  | [], _, a => a
  | lab :: rest, k, a => writeOffsets rest (k + 1) (a.set lab k)

/-- label_to_internal_offset after TrainIndexByScalarInfo: resized to
    rows (zero-filled, line 1736), then written per label. -/
def mvLabelToInternalOffset (scalar_info combined : List (List Nat)) (rows : Nat) :
    List Nat :=
  writeOffsets (mvLabels scalar_info combined).flatten 0 (List.replicate rows 0)

/-! ### combine_partitions (lines 702-735) -/

/-- The per-bucket sizes of a SCALAR_INFO field. -/
def bucketSizes (scalar_info : List (List Nat)) : List Nat := scalar_info.map List.length

/-- The bucket indices sorted by ascending bucket size. std::sort leaves
    the relative order of equal-sized buckets unspecified; the embedding
    fixes the stable ascending order. -/
def sortedIndicesBySize (scalar_info : List (List Nat)) : List Nat :=
  List.insertionSort (fun i1 i2 => (bucketSizes scalar_info).getD i1 0 ≤
    (bucketSizes scalar_info).getD i2 0) (List.range scalar_info.length)

/-- The greedy grouping loop of combine_partitions: accumulate sorted
    bucket indices into cur until the accumulated size reaches base,
    then emit the group and restart; returns the emitted groups and the
    unfinished tail group. -/
def combineLoop (sizes : List Nat) (base : Nat) :
    List Nat → List Nat → Nat → List (List Nat) × List Nat
  | [], cur, _ => ([], cur)
  | i :: rest, cur, curSize =>
      if curSize + sizes.getD i 0 ≥ base then
        ((cur ++ [i]) :: (combineLoop sizes base rest [] 0).1,
          (combineLoop sizes base rest [] 0).2)
      else
        combineLoop sizes base rest (cur ++ [i]) (curSize + sizes.getD i 0)

/-- combine_partitions (lines 702-735): greedy groups over the
    size-sorted bucket indices; a nonempty tail is appended to the last
    emitted group, or forms the single emitted group when no group was
    finished. -/
def combine_partitions (scalar_info : List (List Nat)) (base_rows : Nat) :
    List (List Nat) :=
  let r := combineLoop (bucketSizes scalar_info) base_rows
    (sortedIndicesBySize scalar_info) [] 0
  if r.2.isEmpty then r.1
  else if r.1.isEmpty then [r.2]
  else r.1.dropLast ++ [r.1.getLastD [] ++ r.2]

/-- The number of rows a group of buckets contributes. -/
def groupSize (sizes : List Nat) (g : List Nat) : Nat :=
  (g.map (fun i => sizes.getD i 0)).sum

/-- The base_rows the flat and SQ trainers pass to combine_partitions
    (lines 1973-1976 and 2324-2327). -/
def flatTrainBaseRows : Nat := 128

/-- The base_rows the PQ and PRQ trainers pass to combine_partitions,
    1 << nbits (lines 2483-2487 and 2764-2768). -/
def pqTrainBaseRows (nbits : Nat) : Nat := 1 <<< nbits

/-! ### MV serialization header (writeHeader / readHeader, lines 411-439) -/

/-- A codec-level token of the serialization stream: write_value emits
    one u32, write_vector emits one length-prefixed u32 vector. -/
inductive MVTok
  | u32 (v : Nat)
  | vec (l : List Nat)
  deriving DecidableEq

/-- The in-memory MV state serialized by writeHeader: the number of
    sub-indexes and the three id-mapping structures. -/
structure MVIndexMeta where
  numIndexes : Nat
  labels : List (List Nat)
  index_rows_sum : List Nat
  label_to_internal_offset : List Nat
  deriving DecidableEq

/-- writeHeader (lines 411-424): version 0, indexes.size() and
    labels.size() (both truncated to uint32_t), the per-cluster label
    vectors, then index_rows_sum and label_to_internal_offset. -/
def writeHeader (st : MVIndexMeta) : List MVTok :=
  MVTok.u32 0 :: MVTok.u32 (st.numIndexes % 2 ^ 32) ::
    MVTok.u32 (st.labels.length % 2 ^ 32) ::
    (st.labels.map MVTok.vec ++
      [MVTok.vec st.index_rows_sum, MVTok.vec st.label_to_internal_offset])

/-- read_value of one u32 from the stream. -/
def readU32 : List MVTok → Option (Nat × List MVTok)
  | MVTok.u32 v :: rest => some (v, rest)
  | _ => none

/-- read_vector of one length-prefixed u32 vector from the stream. -/
def readVec : List MVTok → Option (List Nat × List MVTok)
  | MVTok.vec l :: rest => some (l, rest)
  | _ => none

/-- Reading cluster_size label vectors in a row. -/
def readVecs : Nat → List MVTok → Option (List (List Nat) × List MVTok)
  | 0, s => some ([], s)
  | n + 1, s => do
      let (v, s1) ← readVec s
      let (vs, s2) ← readVecs n s1
      some (v :: vs, s2)

/-- readHeader (lines 426-439): reads and ignores the version, reads
    size and cluster_size, the cluster_size label vectors, then the two
    mapping vectors; returns the number of serialized sub-indexes (to
    which the caller resizes its index table) with the restored state
    and the remaining stream. -/
def readHeader (s : List MVTok) : Option (Nat × MVIndexMeta × List MVTok) := do
  let (_version, s1) ← readU32 s
  let (size, s2) ← readU32 s1
  let (cluster_size, s3) ← readU32 s2
  let (labs, s4) ← readVecs cluster_size s3
  let (irs, s5) ← readVec s4
  let (l2io, s6) ← readVec s5
  some (size, ⟨size, labs, irs, l2io⟩, s6)

end Knowhere

namespace Knowhere

/-! ## Theorems -/

/-- Claim C8 (confirmed): a Deserialize / DeserializeFromFile read maps to
    invalid_serialized_index_type exactly when the thrown message contains
    both "Index type" and "not recognized", to faiss_inner_error on any
    other exception, and to success when the read completes. -/
theorem deserialize_error_mapping (r : ReadOutcome) :
    (deserializeStatus r = Status.success ↔ r = ReadOutcome.ok) ∧
    (deserializeStatus r = Status.invalid_serialized_index_type ↔
      ∃ msg, r = ReadOutcome.thrown (some msg) ∧
        containsSub msg fourccNeedleA = true ∧ containsSub msg fourccNeedleB = true) ∧
    (∀ w, r = ReadOutcome.thrown w → is_faiss_fourcc_error w = false →
      deserializeStatus r = Status.faiss_inner_error) := by
  rcases r with _ | w
  · refine ⟨by simp [deserializeStatus], ?_, ?_⟩
    · simp [deserializeStatus]
    · intro w hw; exact absurd hw (by simp)
  · rcases w with _ | msg
    · refine ⟨?_, ?_, ?_⟩
      · simp [deserializeStatus, is_faiss_fourcc_error]
      · simp [deserializeStatus, is_faiss_fourcc_error]
      · intro w hw hfe
        simp [deserializeStatus, is_faiss_fourcc_error]
    · by_cases hA : containsSub msg fourccNeedleA = true
      · by_cases hB : containsSub msg fourccNeedleB = true
        · refine ⟨?_, ?_, ?_⟩
          · simp [deserializeStatus, is_faiss_fourcc_error, hA, hB]
          · simp only [deserializeStatus, is_faiss_fourcc_error, hA, hB, Bool.and_self,
              if_pos]
            constructor
            · intro _; exact ⟨msg, rfl, hA, hB⟩
            · intro _; trivial
          · intro w hw hfe
            cases hw
            simp [is_faiss_fourcc_error, hA, hB] at hfe
        · refine ⟨?_, ?_, ?_⟩
          · simp [deserializeStatus, is_faiss_fourcc_error, hA, hB]
          · simp only [deserializeStatus, is_faiss_fourcc_error, hA, hB, Bool.and_false,
              Bool.false_eq_true, if_neg]
            constructor
            · intro h; exact absurd h (by simp)
            · rintro ⟨m, hm, hmA, hmB⟩
              cases hm
              exact absurd hmB hB
          · intro w hw hfe
            cases hw
            simp [deserializeStatus, is_faiss_fourcc_error, hB]
      · refine ⟨?_, ?_, ?_⟩
        · simp [deserializeStatus, is_faiss_fourcc_error, hA]
        · simp only [deserializeStatus, is_faiss_fourcc_error, hA]
          constructor
          · intro h; exact absurd h (by simp [hA])
          · rintro ⟨m, hm, hmA, hmB⟩
            cases hm
            exact absurd hmA hA
        · intro w hw hfe
          cases hw
          simp [deserializeStatus, is_faiss_fourcc_error, hA]

/-- Witness for C8: a concrete fourCC message maps to
    invalid_serialized_index_type, a concrete other message to
    faiss_inner_error, a completed read to success. -/
theorem deserialize_error_mapping_witness :
    deserializeStatus (ReadOutcome.thrown (some fourccSampleMsg)) =
      Status.invalid_serialized_index_type ∧
    deserializeStatus (ReadOutcome.thrown (some otherSampleMsg)) = Status.faiss_inner_error ∧
    deserializeStatus ReadOutcome.ok = Status.success :=
  ⟨(deserialize_error_mapping (ReadOutcome.thrown (some fourccSampleMsg))).2.1.mpr
      ⟨fourccSampleMsg, rfl, by decide, by decide⟩,
    (deserialize_error_mapping (ReadOutcome.thrown (some otherSampleMsg))).2.2
      (some otherSampleMsg) rfl (by decide),
    (deserialize_error_mapping ReadOutcome.ok).1.mpr rfl⟩

/-- Claim C4 counterexample: with every row filtered out
    (bitset.count() = ntotal = 10, so zero rows pass) and threshold
    93/100, the constructor sets accumulated_alpha unrestricted, while
    the claim rule computed on the count of filter-passing rows says
    tight. -/
theorem iterator_alpha_claim_counterexample :
    iteratorInitialAlpha 10 10 (93 / 100) = AlphaInit.unrestricted ∧
    claimInitialAlpha (10 - 10) 10 (93 / 100) = AlphaInit.tight ∧
    iteratorInitialAlpha 10 10 (93 / 100) ≠ claimInitialAlpha (10 - 10) 10 (93 / 100) := by
  have h1 : iteratorInitialAlpha 10 10 (93 / 100) = AlphaInit.unrestricted := by
    norm_num [iteratorInitialAlpha]
  have h2 : claimInitialAlpha (10 - 10) 10 (93 / 100) = AlphaInit.tight := by
    norm_num [claimInitialAlpha]
  exact ⟨h1, h2, by rw [h1, h2]; simp⟩

/-- Claim C4 (amended): the initial accumulated_alpha is unrestricted
    exactly when bitset.count() - the number of filtered-OUT rows - is at
    least ntotal times the threshold; equivalently, exactly when the
    number of filter-passing rows is at most ntotal times (1 - threshold). -/
theorem iterator_alpha_unrestricted_iff (countBits ntotal : Nat) (thr : ℚ) :
    (iteratorInitialAlpha countBits ntotal thr = AlphaInit.unrestricted ↔
      (countBits : ℚ) ≥ (ntotal : ℚ) * thr) ∧
    (iteratorInitialAlpha countBits ntotal thr = AlphaInit.unrestricted ↔
      (ntotal : ℚ) - (countBits : ℚ) ≤ (ntotal : ℚ) * (1 - thr)) := by
  have hexp : (ntotal : ℚ) * (1 - thr) = (ntotal : ℚ) - (ntotal : ℚ) * thr := by ring
  have hiff : ((countBits : ℚ) ≥ (ntotal : ℚ) * thr) ↔
      ((ntotal : ℚ) - (countBits : ℚ) ≤ (ntotal : ℚ) * (1 - thr)) := by
    rw [hexp]
    constructor
    · intro hh; linarith
    · intro hh; linarith
  by_cases h : (countBits : ℚ) ≥ (ntotal : ℚ) * thr
  · have hv : iteratorInitialAlpha countBits ntotal thr = AlphaInit.unrestricted := by
      unfold iteratorInitialAlpha; rw [if_pos h]
    exact ⟨⟨fun _ => h, fun _ => hv⟩, ⟨fun _ => hiff.mp h, fun _ => hv⟩⟩
  · have hv : iteratorInitialAlpha countBits ntotal thr = AlphaInit.tight := by
      unfold iteratorInitialAlpha; rw [if_neg h]
    have hne : iteratorInitialAlpha countBits ntotal thr ≠ AlphaInit.unrestricted := by
      rw [hv]; simp
    exact ⟨⟨fun hc => absurd hc hne, fun hc => absurd hc h⟩,
      ⟨fun hc => absurd hc hne, fun hc => absurd (hiff.mpr hc) h⟩⟩

/-- Claim C5 counterexample: at rows = 3, nbits = 8 the PQ training row
    check fails with faiss_inner_error, not with invalid_args as the
    claim states. -/
theorem pq_too_few_rows_claim_counterexample :
    hnswPqTrainRowsCheck 3 8 = some Status.faiss_inner_error ∧
    hnswPqTrainRowsCheck 3 8 ≠ some Status.invalid_args ∧
    hnswPrqTrainRowsCheck 3 8 = some Status.faiss_inner_error ∧
    hnswPrqTrainRowsCheck 3 8 ≠ some Status.invalid_args := by
  refine ⟨rfl, by decide, rfl, by decide⟩

/-- Claim C5 (amended): a Train call on an HNSW_PQ or HNSW_PRQ node with
    fewer than 2^nbits training rows fails, with status
    faiss_inner_error. -/
theorem pq_prq_too_few_rows_fails (rows nbits : Nat) (h : rows < 2 ^ nbits) :
    hnswPqTrainRowsCheck rows nbits = some Status.faiss_inner_error ∧
    hnswPrqTrainRowsCheck rows nbits = some Status.faiss_inner_error := by
  have hs : rows < 1 <<< nbits := by
    rw [Nat.one_shiftLeft]; exact h
  exact ⟨by simp [hnswPqTrainRowsCheck, hs], by simp [hnswPrqTrainRowsCheck, hs]⟩

/-- Witness for C5. -/
theorem pq_prq_too_few_rows_fails_witness :
    (3 < 2 ^ 8) ∧
      (hnswPqTrainRowsCheck 3 8 = some Status.faiss_inner_error ∧
        hnswPrqTrainRowsCheck 3 8 = some Status.faiss_inner_error) :=
  ⟨by norm_num, pq_prq_too_few_rows_fails 3 8 (by norm_num)⟩

/-- Claim C6 (confirmed): in the graph-search path (a brute-force
    wrapper exists), the brute-force pass overwrites the per-query
    buffers exactly when the main pass produced fewer than k valid
    results and more rows pass the filter than were produced; if the main
    pass filled k results, or no more than the produced number pass the
    filter, the main result stands. -/
theorem search_bf_fallback (k : Nat) (mainResult bfResult : List Int)
    (bitsetSize bitsetCount : Nat) :
    (realTopk mainResult < k → realTopk mainResult < bitsetSize - bitsetCount →
      searchOneQuery k mainResult bfResult bitsetSize bitsetCount true = bfResult) ∧
    (realTopk mainResult = k →
      searchOneQuery k mainResult bfResult bitsetSize bitsetCount true = mainResult) ∧
    (bitsetSize - bitsetCount ≤ realTopk mainResult →
      searchOneQuery k mainResult bfResult bitsetSize bitsetCount true = mainResult) := by
  refine ⟨?_, ?_, ?_⟩
  · intro h1 h2
    simp [searchOneQuery, bfSearchNeeded, h1, h2]
  · intro h1
    simp [searchOneQuery, bfSearchNeeded, h1]
  · intro h1
    simp [searchOneQuery, bfSearchNeeded, Nat.not_lt.mpr h1]

/-- Witness for C6: with k = 2, one valid id from the graph pass and five
    passing rows, the brute-force result overwrites the buffer; with a
    full graph result it does not. -/
theorem search_bf_fallback_witness :
    searchOneQuery 2 [0, -1] [7, 8] 5 0 true = [7, 8] ∧
    searchOneQuery 2 [0, 3] [7, 8] 5 0 true = [0, 3] :=
  ⟨(search_bf_fallback 2 [0, -1] [7, 8] 5 0).1 (by decide) (by decide),
    (search_bf_fallback 2 [0, 3] [7, 8] 5 0).2.1 (by decide)⟩

/-- Claim C10 (confirmed): an AnnIterator query enables refine only when
    the selected partition index is refine-wrapped - then the refine
    factor is the configured iterator_refine_ratio, defaulting to 0.5 -
    and otherwise the factor is forced to 0 (any configured ratio is
    ignored) and no refine computer is installed. -/
theorem ann_iterator_refine_setup (idx : FIndex) (cfgRatio : Option ℚ) :
    (isRefineIndex idx = true →
      annIteratorRefineFactor idx cfgRatio = cfgRatio.getD (1 / 2)) ∧
    (isRefineIndex idx = false → annIteratorRefineFactor idx cfgRatio = 0) ∧
    (isRefineIndex idx = false →
      iteratorHasRefineComputer idx (annIteratorRefineFactor idx cfgRatio) = false) ∧
    (isRefineIndex idx = true → cfgRatio = none →
      annIteratorRefineFactor idx cfgRatio = 1 / 2 ∧
      iteratorHasRefineComputer idx (annIteratorRefineFactor idx cfgRatio) = true) := by
  refine ⟨?_, ?_, ?_, ?_⟩
  · intro h; simp [annIteratorRefineFactor, h]
  · intro h; simp [annIteratorRefineFactor, h]
  · intro h; simp [iteratorHasRefineComputer, h]
  · intro h hc
    subst hc
    refine ⟨by simp [annIteratorRefineFactor, h], ?_⟩
    simp [iteratorHasRefineComputer, annIteratorRefineFactor, h]

/-- Witness for C10: a refine-wrapped index with no configured ratio gets
    factor 0.5; a plain HNSW with a configured ratio of 0.9 still gets 0. -/
theorem ann_iterator_refine_setup_witness :
    annIteratorRefineFactor (FIndex.refineWrap (FIndex.hnsw FIndex.flat) FIndex.flat) none =
      1 / 2 ∧
    annIteratorRefineFactor (FIndex.hnsw FIndex.flat) (some (9 / 10)) = 0 :=
  ⟨((ann_iterator_refine_setup (FIndex.refineWrap (FIndex.hnsw FIndex.flat) FIndex.flat)
      none).2.2.2 rfl rfl).1,
    (ann_iterator_refine_setup (FIndex.hnsw FIndex.flat) (some (9 / 10))).2.1 rfl⟩

/-- Claim C7 counterexample: a node whose data format is fp16 but whose
    single partition is an HNSW over flat (fp32) storage satisfies the
    claim's "flat storage always" raw-data rule, yet GetVectorByIds
    returns invalid_index_error - flat storage is usable only when the
    node's own data format is fp32. -/
theorem get_vector_by_ids_claim_counterexample :
    claimPreservesRawData (FIndex.hnsw FIndex.flat) DataFormatEnum.fp16 = true ∧
    getVectorByIds [FIndex.hnsw FIndex.flat] DataFormatEnum.fp16 (fun _ => []) [0] =
      .error Status.invalid_index_error :=
  ⟨rfl, rfl⟩

/-- Claim C7 (amended): GetVectorByIds succeeds exactly when every
    partition resolves a raw-data source whose stored format is the
    node's own data format - flat storage qualifies exactly for fp32
    nodes, scalar-quantized storage exactly when its qtype encodes the
    node format, a refine wrapper delegates to its refine index, any
    other storage has no source and the call fails with
    invalid_index_error; on success a non-fp32 node converts each
    reconstructed fp32 row through the format codec. -/
theorem get_vector_by_ids_raw_data (indexes : List FIndex) (df : DataFormatEnum)
    (recon : Nat → List ℚ) (ids : List Nat) (hne : indexes ≠ []) :
    ((∀ idx ∈ indexes, (getIndexToReconstructRawDataFrom idx df).isSome = true) →
      getVectorByIds indexes df recon ids =
        .ok (ids.map (fun id =>
          if df = DataFormatEnum.fp32 then OutRow.raw (recon id)
          else OutRow.conv df (recon id)))) ∧
    ((∃ idx ∈ indexes, getIndexToReconstructRawDataFrom idx df = none) →
      getVectorByIds indexes df recon ids = .error Status.invalid_index_error) ∧
    ((getIndexToReconstructRawDataFrom (FIndex.hnsw FIndex.flat) df).isSome = true ↔
      df = DataFormatEnum.fp32) ∧
    (∀ qt, (getIndexToReconstructRawDataFrom (FIndex.hnsw (FIndex.sq qt)) df).isSome = true ↔
      ((qt = SQQtype.qtFp16 ∧ df = DataFormatEnum.fp16) ∨
        (qt = SQQtype.qtBf16 ∧ df = DataFormatEnum.bf16) ∨
        (qt = SQQtype.qtBit8DirectSigned ∧ df = DataFormatEnum.int8))) ∧
    (∀ base r, getIndexToReconstructRawDataFrom (FIndex.refineWrap base r) df =
      getIndexToReconstructRawDataFrom (FIndex.hnsw r) df) ∧
    getIndexToReconstructRawDataFrom (FIndex.hnsw FIndex.otherIndex) df = none := by
  have hie : indexes.isEmpty = false := by
    cases indexes with
    | nil => exact absurd rfl hne
    | cons a t => rfl
  refine ⟨?_, ?_, ?_, ?_, ?_, ?_⟩
  · intro hall
    have hany : ((indexes.map (fun idx => getIndexToReconstructRawDataFrom idx df)).any
        Option.isNone) = false := by
      rw [List.any_eq_false]
      intro o ho
      rw [List.mem_map] at ho
      obtain ⟨idx, hidx, rfl⟩ := ho
      have hs := hall idx hidx
      obtain ⟨y, hy⟩ := Option.isSome_iff_exists.mp hs
      rw [hy]
      simp
    cases df <;> simp [getVectorByIds, hie, hany]
  · intro hex
    have hany : ((indexes.map (fun idx => getIndexToReconstructRawDataFrom idx df)).any
        Option.isNone) = true := by
      rw [List.any_eq_true]
      obtain ⟨idx, hidx, hnone⟩ := hex
      exact ⟨getIndexToReconstructRawDataFrom idx df, List.mem_map.mpr ⟨idx, hidx, rfl⟩,
        by rw [hnone]; rfl⟩
    cases df <;> simp [getVectorByIds, hie, hany]
  · cases df <;> decide
  · intro qt; cases qt <;> cases df <;> decide
  · intro base r; rfl
  · rfl

/-- Witness for C7: an fp16 node over fp16 scalar-quantized storage
    succeeds and converts the reconstructed fp32 row into the node
    format. -/
theorem get_vector_by_ids_raw_data_witness :
    getVectorByIds [FIndex.hnsw (FIndex.sq SQQtype.qtFp16)] DataFormatEnum.fp16
      (fun _ => [1]) [0] = .ok [OutRow.conv DataFormatEnum.fp16 [1]] := by
  have h := (get_vector_by_ids_raw_data [FIndex.hnsw (FIndex.sq SQQtype.qtFp16)]
    DataFormatEnum.fp16 (fun _ => [1]) [0] (by simp)).1 (by
      intro idx hidx
      rw [List.mem_singleton] at hidx
      subst hidx
      rfl)
  simpa using h

/-- The upper_bound cursor reaches the end of the vector exactly when
    every element is at most the probe value. -/
theorem upperBoundIdx_eq_length_iff (l : List Nat) (v : Nat) :
    upperBoundIdx l v = l.length ↔ ∀ x ∈ l, x ≤ v := by
  induction l with
  | nil => simp [upperBoundIdx]
  | cons a t ih =>
    unfold upperBoundIdx at ih ⊢
    by_cases ha : a ≤ v
    · rw [List.takeWhile_cons, if_pos (by simp [ha])]
      simp only [List.length_cons, Nat.add_right_cancel_iff, List.mem_cons]
      constructor
      · intro h x hx
        rcases hx with hx | hx
        · subst hx; exact ha
        · exact (ih.mp h) x hx
      · intro h
        exact ih.mpr (fun x hx => h x (Or.inr hx))
    · rw [List.takeWhile_cons, if_neg (by simp [ha])]
      simp only [List.length_nil, List.length_cons]
      constructor
      · intro h; omega
      · intro h
        exact absurd (h a (List.mem_cons_self a t)) ha

/-- With a leading zero in index_rows_sum, the upper_bound cursor is
    always at least one step in. -/
theorem upperBoundIdx_pos_of_head_zero (l : List Nat) (v : Nat) (h : l.head? = some 0) :
    1 ≤ upperBoundIdx l v := by
  cases l with
  | nil => simp at h
  | cons a t =>
    have ha : a = 0 := by simpa using h
    subst ha
    simp [upperBoundIdx, List.takeWhile_cons]

/-- Claim C9 (confirmed): on a multi-partition index a bitset that
    filters out every row is not an error - partition 0 is selected and
    the search proceeds on it; the invalid_args "partition key value not
    correctly set" error occurs exactly when the bitset is empty, or some
    row passes but the first valid bit resolves to an offset at or beyond
    every entry of index_rows_sum, i.e. beyond every partition range. -/
theorem mv_partition_selection (numIndexes : Nat) (bits : List Bool) (hasOutIds : Bool)
    (l2io irs : List Nat) (hmulti : 1 < numIndexes) (hhead : irs.head? = some 0) :
    (bits ≠ [] → countSetBits bits = bits.length →
      selectPartitionToSearch numIndexes bits hasOutIds l2io irs = .ok 0) ∧
    (selectPartitionToSearch numIndexes bits hasOutIds l2io irs = .error Status.invalid_args ↔
      (bits = [] ∨ (countSetBits bits ≠ bits.length ∧
        ∀ x ∈ irs, x ≤ resolveFirstValid bits hasOutIds l2io))) := by
  have hne1 : numIndexes ≠ 1 := by omega
  constructor
  · intro hb hc
    have hbe : bits.isEmpty = false := by
      cases bits with
      | nil => exact absurd rfl hb
      | cons a t => rfl
    unfold selectPartitionToSearch getIndexToSearchByScalarInfo
    simp [hne1, hbe, hc]
  · rcases eq_or_ne bits [] with hb | hb
    · subst hb
      unfold selectPartitionToSearch getIndexToSearchByScalarInfo
      simp [hne1]
    · have hbe : bits.isEmpty = false := by
        cases bits with
        | nil => exact absurd rfl hb
        | cons a t => rfl
      by_cases hc : countSetBits bits = bits.length
      · unfold selectPartitionToSearch getIndexToSearchByScalarInfo
        simp [hne1, hbe, hc, hb]
      · set v := resolveFirstValid bits hasOutIds l2io with hv
        by_cases hit : upperBoundIdx irs v = irs.length
        · unfold selectPartitionToSearch getIndexToSearchByScalarInfo
          simp only [hne1, if_neg, hbe, Bool.false_eq_true, hc, hit, if_pos, if_true]
          simp [hb, hc, ← hv]
          exact (upperBoundIdx_eq_length_iff irs v).mp hit
        · have hpos := upperBoundIdx_pos_of_head_zero irs v hhead
          have hnonneg : ¬ ((upperBoundIdx irs v : Int) - 1 < 0) := by omega
          unfold selectPartitionToSearch getIndexToSearchByScalarInfo
          simp only [hne1, if_neg, hbe, Bool.false_eq_true, hc, hit, if_false, ← hv]
          simp only [hnonneg, if_neg, if_false]
          constructor
          · intro hcontra
            exact absurd hcontra (by simp)
          · rintro (hcontra | ⟨_, hall⟩)
            · exact absurd hcontra hb
            · exact absurd ((upperBoundIdx_eq_length_iff irs v).mpr hall) hit

/-- Witness for C9: with two partitions of one row each, an all-set
    bitset selects partition 0, and a bitset whose first valid bit
    resolves past both partitions is the invalid_args error. -/
theorem mv_partition_selection_witness :
    selectPartitionToSearch 2 [true, true] false [0, 1] [0, 1, 2] = .ok 0 ∧
    selectPartitionToSearch 2 [false, true] false [5, 1] [0, 1, 2] =
      .error Status.invalid_args :=
  ⟨(mv_partition_selection 2 [true, true] false [0, 1] [0, 1, 2] (by decide) rfl).1
      (by decide) (by decide),
    (mv_partition_selection 2 [false, true] false [5, 1] [0, 1, 2] (by decide) rfl).2.mpr
      (Or.inr ⟨by decide, by decide⟩)⟩

/-- Reading back a run of label vectors recovers them and leaves the
    rest of the stream. -/
theorem readVecs_map_vec (ls : List (List Nat)) (rest : List MVTok) :
    readVecs ls.length (ls.map MVTok.vec ++ rest) = some (ls, rest) := by
  induction ls with
  | nil => rfl
  | cons a t ih => simp [readVecs, readVec, ih]

/-- Evaluating readHeader on a well-shaped stream. -/
theorem readHeader_eval (version size cluster : Nat) (ls : List (List Nat))
    (irs l2io : List Nat) (rest : List MVTok) (hc : cluster = ls.length) :
    readHeader (MVTok.u32 version :: MVTok.u32 size :: MVTok.u32 cluster ::
        (ls.map MVTok.vec ++ (MVTok.vec irs :: MVTok.vec l2io :: rest))) =
      some (size, ⟨size, ls, irs, l2io⟩, rest) := by
  subst hc
  simp [readHeader, readU32, readVec,
    readVecs_map_vec ls (MVTok.vec irs :: MVTok.vec l2io :: rest)]

/-- Claim C3 (confirmed): the MV header round-trips - readHeader applied
    to the writeHeader output restores labels, index_rows_sum and
    label_to_internal_offset and returns the number of serialized
    sub-indexes - and the header is laid out as version u32 = 0, size
    u32, cluster_size u32, the cluster_size length-prefixed label
    vectors, then the index_rows_sum and label_to_internal_offset
    vectors. -/
theorem mv_header_roundtrip (st : MVIndexMeta) (rest : List MVTok)
    (hnum : st.numIndexes < 2 ^ 32) (hcluster : st.labels.length < 2 ^ 32) :
    readHeader (writeHeader st ++ rest) = some (st.numIndexes, st, rest) ∧
    writeHeader st = MVTok.u32 0 :: MVTok.u32 st.numIndexes ::
      MVTok.u32 st.labels.length :: (st.labels.map MVTok.vec ++
        [MVTok.vec st.index_rows_sum, MVTok.vec st.label_to_internal_offset]) := by
  have hmod1 : st.numIndexes % 2 ^ 32 = st.numIndexes := Nat.mod_eq_of_lt hnum
  have hmod2 : st.labels.length % 2 ^ 32 = st.labels.length := Nat.mod_eq_of_lt hcluster
  constructor
  · have hshape : writeHeader st ++ rest = MVTok.u32 0 :: MVTok.u32 st.numIndexes ::
        MVTok.u32 st.labels.length :: (st.labels.map MVTok.vec ++
          (MVTok.vec st.index_rows_sum :: MVTok.vec st.label_to_internal_offset :: rest)) := by
      unfold writeHeader
      rw [hmod1, hmod2]
      simp [List.append_assoc]
    rw [hshape, readHeader_eval 0 st.numIndexes st.labels.length st.labels st.index_rows_sum
      st.label_to_internal_offset rest rfl]
  · unfold writeHeader
    rw [hmod1, hmod2]

/-- Witness for C3: a concrete two-partition state round-trips. -/
theorem mv_header_roundtrip_witness :
    readHeader (writeHeader ⟨2, [[1], [0, 2]], [0, 1, 3], [1, 0, 2]⟩ ++ []) =
      some (2, ⟨2, [[1], [0, 2]], [0, 1, 3], [1, 0, 2]⟩, []) :=
  (mv_header_roundtrip ⟨2, [[1], [0, 2]], [0, 1, 3], [1, 0, 2]⟩ []
    (by norm_num) (by norm_num)).1

/-- Reading a list back through its positions. -/
theorem map_getD_range (l : List Nat) :
    (List.range l.length).map (fun i => l.getD i 0) = l := by
  induction l with
  | nil => rfl
  | cons a t ih =>
      rw [List.length_cons, List.range_succ_eq_map, List.map_cons, List.map_map]
      have hcomp : ((fun i => (a :: t).getD i 0) ∘ Nat.succ) = (fun i => t.getD i 0) := by
        funext i
        simp [List.getD_cons_succ]
      simp only [List.getD_cons_zero]
      rw [hcomp, ih]

/-- The grouping loop conserves the traversal: the emitted groups
    flattened, then the tail, is cur followed by the remaining input. -/
theorem combineLoop_flatten (sizes : List Nat) (base : Nat) :
    ∀ (idxs cur : List Nat) (curSize : Nat),
      (combineLoop sizes base idxs cur curSize).1.flatten ++
        (combineLoop sizes base idxs cur curSize).2 = cur ++ idxs := by
  intro idxs
  induction idxs with
  | nil => intro cur curSize; simp [combineLoop]
  | cons i rest ih =>
      intro cur curSize
      unfold combineLoop
      by_cases hc : curSize + sizes.getD i 0 ≥ base
      · rw [if_pos hc]
        simp only [List.flatten_cons, List.append_assoc]
        rw [ih [] 0]
        simp
      · rw [if_neg hc]
        rw [ih (cur ++ [i]) (curSize + sizes.getD i 0)]
        simp

/-- Every group the loop emits has accumulated at least base rows. -/
theorem combineLoop_groups_ge (sizes : List Nat) (base : Nat) :
    ∀ (idxs cur : List Nat) (curSize : Nat), curSize = groupSize sizes cur →
      ∀ g ∈ (combineLoop sizes base idxs cur curSize).1, base ≤ groupSize sizes g := by
  intro idxs
  induction idxs with
  | nil => intro cur curSize hinv g hg; simp [combineLoop] at hg
  | cons i rest ih =>
      intro cur curSize hinv g hg
      unfold combineLoop at hg
      by_cases hc : curSize + sizes.getD i 0 ≥ base
      · rw [if_pos hc] at hg
        rcases List.mem_cons.mp hg with hg | hg
        · subst hg
          have hgs : groupSize sizes (cur ++ [i]) = groupSize sizes cur + sizes.getD i 0 := by
            simp [groupSize]
          omega
        · exact ih [] 0 rfl g hg
      · rw [if_neg hc] at hg
        refine ih (cur ++ [i]) (curSize + sizes.getD i 0) ?_ g hg
        simp [groupSize, hinv]

/-- When even the whole remaining input cannot reach base, the loop
    emits nothing and accumulates everything into the tail. -/
theorem combineLoop_all_small (sizes : List Nat) (base : Nat) :
    ∀ (idxs cur : List Nat) (curSize : Nat),
      curSize + groupSize sizes idxs < base →
      combineLoop sizes base idxs cur curSize = ([], cur ++ idxs) := by
  intro idxs
  induction idxs with
  | nil => intro cur curSize h; simp [combineLoop]
  | cons i rest ih =>
      intro cur curSize h
      have hgs : groupSize sizes (i :: rest) = sizes.getD i 0 + groupSize sizes rest := by
        simp [groupSize]
      have hc : ¬ (curSize + sizes.getD i 0 ≥ base) := by omega
      unfold combineLoop
      rw [if_neg hc, ih (cur ++ [i]) (curSize + sizes.getD i 0) (by omega)]
      simp

/-- Appending the tail group to the last emitted group leaves the
    flattened traversal unchanged. -/
theorem flatten_tail_merge (res : List (List Nat)) (tail : List Nat) :
    (if tail.isEmpty then res
     else if res.isEmpty then [tail]
     else res.dropLast ++ [res.getLastD [] ++ tail]).flatten = res.flatten ++ tail := by
  rcases tail with _ | ⟨t0, ts⟩
  · simp
  · rcases res with _ | ⟨g0, gs⟩
    · simp
    · have hne : (g0 :: gs) ≠ [] := List.cons_ne_nil g0 gs
      have hlastD : (g0 :: gs).getLastD [] = (g0 :: gs).getLast hne := by
        rw [List.getLastD_eq_getLast?, List.getLast?_eq_getLast (g0 :: gs) hne]
        rfl
      have hfl : (g0 :: gs).flatten =
          (g0 :: gs).dropLast.flatten ++ (g0 :: gs).getLast hne := by
        conv_lhs => rw [← List.dropLast_append_getLast hne]
        rw [List.flatten_append]
        simp
      simp only [List.isEmpty_cons, Bool.false_eq_true, if_false]
      rw [hlastD, List.flatten_append, hfl, List.append_assoc]
      simp

/-- The size of a group splits over append. -/
theorem groupSize_append (sizes : List Nat) (g1 g2 : List Nat) :
    groupSize sizes (g1 ++ g2) = groupSize sizes g1 + groupSize sizes g2 := by
  simp [groupSize]

/-- The sorted traversal carries the total row count. -/
theorem groupSize_sortedIndices (scalar_info : List (List Nat)) :
    groupSize (bucketSizes scalar_info) (sortedIndicesBySize scalar_info) =
      (bucketSizes scalar_info).sum := by
  have hperm : List.Perm (sortedIndicesBySize scalar_info)
      (List.range scalar_info.length) := List.perm_insertionSort _ _
  have hlen : scalar_info.length = (bucketSizes scalar_info).length := by
    simp [bucketSizes]
  unfold groupSize
  rw [(hperm.map (fun i => (bucketSizes scalar_info).getD i 0)).sum_eq, hlen,
    map_getD_range]

/-- Claim C2 (confirmed): combine_partitions traverses the bucket
    indices in ascending-size order (the flattened result is exactly the
    size-sorted index list, a permutation of all bucket indices), every
    emitted group reaches base_rows whenever the total does, the single
    undersized group is emitted anyway when the total is below
    base_rows, and the trainers call it with base_rows = 128 for flat/SQ
    and 2^nbits for PQ/PRQ. -/
theorem combine_partitions_spec (scalar_info : List (List Nat)) (base_rows : Nat) :
    (combine_partitions scalar_info base_rows).flatten = sortedIndicesBySize scalar_info ∧
    List.Perm (combine_partitions scalar_info base_rows).flatten
      (List.range scalar_info.length) ∧
    List.Sorted (fun i1 i2 => (bucketSizes scalar_info).getD i1 0 ≤
      (bucketSizes scalar_info).getD i2 0)
      (combine_partitions scalar_info base_rows).flatten ∧
    (base_rows ≤ (bucketSizes scalar_info).sum →
      ∀ g ∈ combine_partitions scalar_info base_rows,
        base_rows ≤ groupSize (bucketSizes scalar_info) g) ∧
    (scalar_info ≠ [] → (bucketSizes scalar_info).sum < base_rows →
      combine_partitions scalar_info base_rows = [sortedIndicesBySize scalar_info]) ∧
    flatTrainBaseRows = 128 ∧ (∀ nbits, pqTrainBaseRows nbits = 2 ^ nbits) := by
  have h0 : (combineLoop (bucketSizes scalar_info) base_rows
        (sortedIndicesBySize scalar_info) [] 0).1.flatten ++
      (combineLoop (bucketSizes scalar_info) base_rows
        (sortedIndicesBySize scalar_info) [] 0).2 = sortedIndicesBySize scalar_info := by
    simpa using combineLoop_flatten (bucketSizes scalar_info) base_rows
      (sortedIndicesBySize scalar_info) [] 0
  have hflat : (combine_partitions scalar_info base_rows).flatten =
      sortedIndicesBySize scalar_info := by
    unfold combine_partitions
    rw [flatten_tail_merge]
    exact h0
  have hperm : List.Perm (sortedIndicesBySize scalar_info)
      (List.range scalar_info.length) := List.perm_insertionSort _ _
  refine ⟨hflat, ?_, ?_, ?_, ?_, rfl, ?_⟩
  · rw [hflat]; exact hperm
  · rw [hflat]
    haveI hto : IsTotal Nat (fun i1 i2 => (bucketSizes scalar_info).getD i1 0 ≤
        (bucketSizes scalar_info).getD i2 0) := ⟨fun a b => Nat.le_total _ _⟩
    haveI htr : IsTrans Nat (fun i1 i2 => (bucketSizes scalar_info).getD i1 0 ≤
        (bucketSizes scalar_info).getD i2 0) := ⟨fun a b c hab hbc => le_trans hab hbc⟩
    exact List.sorted_insertionSort _ _
  · intro hbase g hg
    have hGroups := combineLoop_groups_ge (bucketSizes scalar_info) base_rows
      (sortedIndicesBySize scalar_info) [] 0 rfl
    unfold combine_partitions at hg
    by_cases h2 : (combineLoop (bucketSizes scalar_info) base_rows
        (sortedIndicesBySize scalar_info) [] 0).2.isEmpty
    · rw [if_pos h2] at hg
      exact hGroups g hg
    · rw [if_neg h2] at hg
      by_cases h1 : (combineLoop (bucketSizes scalar_info) base_rows
          (sortedIndicesBySize scalar_info) [] 0).1.isEmpty
      · rw [if_pos h1] at hg
        rw [List.mem_singleton] at hg
        subst hg
        have h1e := List.isEmpty_iff.mp h1
        rw [h1e, List.flatten_nil, List.nil_append] at h0
        rw [h0, groupSize_sortedIndices]
        exact hbase
      · rw [if_neg h1] at hg
        rcases List.mem_append.mp hg with hgd | hgl
        · exact hGroups g ((List.dropLast_sublist _).subset hgd)
        · rw [List.mem_singleton] at hgl
          subst hgl
          have h1ne : (combineLoop (bucketSizes scalar_info) base_rows
              (sortedIndicesBySize scalar_info) [] 0).1 ≠ [] := by
            intro hcontra
            exact h1 (by rw [hcontra]; rfl)
          have hlastD : (combineLoop (bucketSizes scalar_info) base_rows
                (sortedIndicesBySize scalar_info) [] 0).1.getLastD [] =
              (combineLoop (bucketSizes scalar_info) base_rows
                (sortedIndicesBySize scalar_info) [] 0).1.getLast h1ne := by
            rw [List.getLastD_eq_getLast?, List.getLast?_eq_getLast _ h1ne]
            rfl
          have hmem : (combineLoop (bucketSizes scalar_info) base_rows
              (sortedIndicesBySize scalar_info) [] 0).1.getLastD [] ∈
              (combineLoop (bucketSizes scalar_info) base_rows
                (sortedIndicesBySize scalar_info) [] 0).1 := by
            rw [hlastD]
            exact List.getLast_mem h1ne
          have hge := hGroups _ hmem
          rw [groupSize_append]
          omega
  · intro hne hsmall
    have hsmall2 : 0 + groupSize (bucketSizes scalar_info)
        (sortedIndicesBySize scalar_info) < base_rows := by
      rw [Nat.zero_add, groupSize_sortedIndices]
      exact hsmall
    have hloop := combineLoop_all_small (bucketSizes scalar_info) base_rows
      (sortedIndicesBySize scalar_info) [] 0 hsmall2
    have hsne : sortedIndicesBySize scalar_info ≠ [] := by
      intro hcontra
      have hlen := hperm.length_eq
      rw [hcontra] at hlen
      simp [List.length_range] at hlen
      exact absurd (List.length_eq_zero.mp hlen.symm) hne
    unfold combine_partitions
    rw [hloop]
    simp only [List.nil_append]
    rw [if_neg (by simpa using hsne)]
    simp
  · intro nbits
    rw [pqTrainBaseRows, Nat.one_shiftLeft]

/-- Witness for C2: buckets of sizes 2, 3, 1 with base_rows 3 produce
    the sorted-traversal groups, each reaching base_rows; buckets of
    total size 2 with base_rows 5 are emitted as the single undersized
    group. -/
theorem combine_partitions_spec_witness :
    3 ≤ groupSize (bucketSizes [[0, 1], [2, 3, 4], [5]]) [2, 0] ∧
    combine_partitions [[9], [7]] 5 = [sortedIndicesBySize [[9], [7]]] :=
  ⟨(combine_partitions_spec [[0, 1], [2, 3, 4], [5]] 3).2.2.2.1 (by decide) [2, 0]
      (by decide),
    (combine_partitions_spec [[9], [7]] 5).2.2.2.2.1 (by decide) (by decide)⟩

/-- An indexing hit is a membership. -/
theorem mem_of_getElem_eq_some {α : Type} {l : List α} {n : Nat} {a : α}
    (h : l[n]? = some a) : a ∈ l := by
  rcases List.getElem?_eq_some.mp h with ⟨hlt, rfl⟩
  exact List.getElem_mem hlt

/-- The offset writes do not change the vector length. -/
theorem writeOffsets_length (l : List Nat) : ∀ (k : Nat) (a : List Nat),
    (writeOffsets l k a).length = a.length := by
  induction l with
  | nil => intro k a; rfl
  | cons lab rest ih =>
      intro k a
      unfold writeOffsets
      rw [ih, List.length_set]

/-- A position that is never written keeps its value. -/
theorem writeOffsets_getElem_of_not_mem (l : List Nat) : ∀ (k : Nat) (a : List Nat)
    (j : Nat), j ∉ l → (writeOffsets l k a)[j]? = a[j]? := by
  induction l with
  | nil => intro k a j hj; rfl
  | cons lab rest ih =>
      intro k a j hj
      rw [List.mem_cons, not_or] at hj
      unfold writeOffsets
      rw [ih (k + 1) (a.set lab k) j hj.2, List.getElem?_set_ne (Ne.symm hj.1)]

/-- Writing offsets over a duplicate-free label list assigns each label
    its traversal position. -/
theorem writeOffsets_getElem_of_nodup (l : List Nat) : ∀ (k : Nat) (a : List Nat)
    (q j : Nat), l.Nodup → l[q]? = some j → j < a.length →
    (writeOffsets l k a)[j]? = some (k + q) := by
  induction l with
  | nil => intro k a q j _ hq; simp at hq
  | cons lab rest ih =>
      intro k a q j hnd hq hlt
      rw [List.nodup_cons] at hnd
      unfold writeOffsets
      cases q with
      | zero =>
          rw [List.getElem?_cons_zero] at hq
          injection hq with hq
          subst hq
          rw [writeOffsets_getElem_of_not_mem rest (k + 1) (a.set lab k) lab hnd.1,
            List.getElem?_set_self hlt]
          rfl
      | succ q' =>
          rw [List.getElem?_cons_succ] at hq
          have hjne : j ≠ lab := by
            intro hcontra
            subst hcontra
            exact hnd.1 (mem_of_getElem_eq_some hq)
          have hres := ih (k + 1) (a.set lab k) q' j hnd.2 hq
            (by rw [List.length_set]; exact hlt)
          rw [hres]
          congr 1
          omega

/-- index_rows_sum has one entry per partition plus the leading
    accumulator. -/
theorem mvRowsSum_length (parts : List (List Nat)) : ∀ acc : Nat,
    (mvRowsSum parts acc).length = parts.length + 1 := by
  induction parts with
  | nil => intro acc; rfl
  | cons part rest ih =>
      intro acc
      unfold mvRowsSum
      rw [List.length_cons, ih, List.length_cons]

/-- index_rows_sum[i] is the accumulator plus the sizes of the first i
    partitions. -/
theorem mvRowsSum_getElem (parts : List (List Nat)) : ∀ (acc i : Nat),
    i ≤ parts.length →
    (mvRowsSum parts acc)[i]? = some (acc + ((parts.take i).map List.length).sum) := by
  induction parts with
  | nil =>
      intro acc i hi
      have hz : i = 0 := by simpa using hi
      subst hz
      simp [mvRowsSum]
  | cons part rest ih =>
      intro acc i hi
      cases i with
      | zero => simp [mvRowsSum]
      | succ i' =>
          unfold mvRowsSum
          rw [List.getElem?_cons_succ,
            ih (acc + part.length) i' (Nat.le_of_succ_le_succ hi),
            List.take_succ_cons, List.map_cons, List.sum_cons]
          congr 1
          omega

/-- Every entry of index_rows_sum is at least the leading accumulator. -/
theorem mvRowsSum_le_of_mem (parts : List (List Nat)) : ∀ (acc x : Nat),
    x ∈ mvRowsSum parts acc → acc ≤ x := by
  induction parts with
  | nil =>
      intro acc x hx
      unfold mvRowsSum at hx
      rw [List.mem_singleton] at hx
      omega
  | cons part rest ih =>
      intro acc x hx
      unfold mvRowsSum at hx
      rcases List.mem_cons.mp hx with hx | hx
      · omega
      · have := ih (acc + part.length) x hx
        omega

/-- index_rows_sum is non-decreasing. -/
theorem mvRowsSum_sorted (parts : List (List Nat)) : ∀ acc : Nat,
    List.Sorted (· ≤ ·) (mvRowsSum parts acc) := by
  induction parts with
  | nil => intro acc; exact List.sorted_singleton acc
  | cons part rest ih =>
      intro acc
      unfold mvRowsSum
      rw [List.sorted_cons]
      refine ⟨fun b hb => ?_, ih (acc + part.length)⟩
      have := mvRowsSum_le_of_mem rest (acc + part.length) b hb
      omega

/-- The last entry of index_rows_sum is the accumulator plus the total
    partition size. -/
theorem mvRowsSum_getLast (parts : List (List Nat)) (acc : Nat) :
    (mvRowsSum parts acc).getLast? = some (acc + (parts.map List.length).sum) := by
  rw [List.getLast?_eq_getElem?, mvRowsSum_length, Nat.add_sub_cancel,
    mvRowsSum_getElem parts acc parts.length (le_refl _), List.take_length]

/-- Flattening per-group flatMaps is the flatMap of the flattened
    groups. -/
theorem flatten_map_flatMap (f : Nat → List Nat) (L : List (List Nat)) :
    (L.map (fun g => g.flatMap f)).flatten = L.flatten.flatMap f := by
  induction L with
  | nil => rfl
  | cons g rest ih =>
      rw [List.map_cons, List.flatten_cons, List.flatten_cons, List.flatMap_append, ih]

/-- Fetching every bucket in index order reproduces the bucket list. -/
theorem range_flatMap_fetchBucket (scalar_info : List (List Nat)) :
    (List.range scalar_info.length).flatMap (fetchBucket scalar_info) =
      scalar_info.flatten := by
  induction scalar_info with
  | nil => rfl
  | cons b rest ih =>
      rw [List.length_cons, List.range_succ_eq_map, List.flatMap_cons, List.flatMap_map]
      have hfix : (fun a => fetchBucket (b :: rest) (Nat.succ a)) = fetchBucket rest := by
        funext a
        simp [fetchBucket, List.getD_cons_succ]
      rw [hfix, ih, List.flatten_cons]
      rfl

/-- Under the coverage hypotheses the concatenated partition labels are
    a permutation of the external labels 0..rows-1. -/
theorem mvLabels_flatten_perm (scalar_info combined : List (List Nat)) (rows : Nat)
    (hcov : List.Perm combined.flatten (List.range scalar_info.length))
    (hpart : List.Perm scalar_info.flatten (List.range rows)) :
    List.Perm (mvLabels scalar_info combined).flatten (List.range rows) := by
  unfold mvLabels partitionLabels
  rw [flatten_map_flatMap]
  have h1 := hcov.flatMap_right (fetchBucket scalar_info)
  rw [range_flatMap_fetchBucket] at h1
  exact h1.trans hpart

/-- A label at local position q of partition p sits at global position
    (sizes of the first p partitions) + q of the concatenation. -/
theorem flatten_getElem_of_part (parts : List (List Nat)) :
    ∀ (p : Nat) (part : List Nat) (q lab : Nat),
      parts[p]? = some part → part[q]? = some lab →
      parts.flatten[((parts.take p).map List.length).sum + q]? = some lab := by
  induction parts with
  | nil => intro p part q lab hp; simp at hp
  | cons g rest ih =>
      intro p part q lab hp hq
      cases p with
      | zero =>
          rw [List.getElem?_cons_zero] at hp
          injection hp with hp
          subst hp
          obtain ⟨hqlt, _⟩ := List.getElem?_eq_some.mp hq
          rw [List.take_zero, List.map_nil, List.sum_nil, Nat.zero_add,
            List.flatten_cons, List.getElem?_append_left hqlt]
          exact hq
      | succ p' =>
          rw [List.getElem?_cons_succ] at hp
          rw [List.take_succ_cons, List.map_cons, List.sum_cons, List.flatten_cons]
          rw [List.getElem?_append_right (by omega : g.length ≤
            g.length + ((rest.take p').map List.length).sum + q)]
          have hidx : g.length + ((rest.take p').map List.length).sum + q - g.length =
              ((rest.take p').map List.length).sum + q := by omega
          rw [hidx]
          exact ih p' part q lab hp hq

/-- Claim C1 (confirmed): after a Train that partitions the external
    labels 0..rows-1 into buckets and combines the buckets into groups
    covering every bucket exactly once, the MV mapping invariants hold:
    index_rows_sum is non-decreasing with last entry rows, each
    partition's label vector has length index_rows_sum[i+1] -
    index_rows_sum[i], and for every external label at local position q
    of partition p, label_to_internal_offset maps it into
    [index_rows_sum[p], index_rows_sum[p+1]) and the partition's label
    vector maps the offset back to the label. -/
theorem train_by_scalar_info_invariants (scalar_info combined : List (List Nat))
    (rows : Nat)
    (hcov : List.Perm combined.flatten (List.range scalar_info.length))
    (hpart : List.Perm scalar_info.flatten (List.range rows)) :
    List.Sorted (· ≤ ·) (mvRowsSum (mvLabels scalar_info combined) 0) ∧
    (mvRowsSum (mvLabels scalar_info combined) 0).getLast? = some rows ∧
    (∀ i part, (mvLabels scalar_info combined)[i]? = some part →
      ∃ a b, (mvRowsSum (mvLabels scalar_info combined) 0)[i]? = some a ∧
        (mvRowsSum (mvLabels scalar_info combined) 0)[i + 1]? = some b ∧
        part.length = b - a) ∧
    (∀ p part q lab, (mvLabels scalar_info combined)[p]? = some part →
      part[q]? = some lab →
      ∃ a b, (mvRowsSum (mvLabels scalar_info combined) 0)[p]? = some a ∧
        (mvRowsSum (mvLabels scalar_info combined) 0)[p + 1]? = some b ∧
        (mvLabelToInternalOffset scalar_info combined rows).getD lab 0 = a + q ∧
        a ≤ (mvLabelToInternalOffset scalar_info combined rows).getD lab 0 ∧
        (mvLabelToInternalOffset scalar_info combined rows).getD lab 0 < b ∧
        part[(mvLabelToInternalOffset scalar_info combined rows).getD lab 0 - a]? =
          some lab) := by
  have hflatperm := mvLabels_flatten_perm scalar_info combined rows hcov hpart
  have hnodup : (mvLabels scalar_info combined).flatten.Nodup :=
    (hflatperm.symm).nodup (List.nodup_range rows)
  have hlen : (mvLabels scalar_info combined).flatten.length = rows := by
    rw [hflatperm.length_eq, List.length_range]
  refine ⟨mvRowsSum_sorted (mvLabels scalar_info combined) 0, ?_, ?_, ?_⟩
  · rw [mvRowsSum_getLast, Nat.zero_add, ← List.length_flatten, hlen]
  · intro i part hp
    have hilt : i < (mvLabels scalar_info combined).length :=
      (List.getElem?_eq_some.mp hp).1
    have htake : (((mvLabels scalar_info combined).take (i + 1)).map List.length).sum =
        (((mvLabels scalar_info combined).take i).map List.length).sum + part.length := by
      rw [List.take_succ, hp]
      simp
    refine ⟨0 + (((mvLabels scalar_info combined).take i).map List.length).sum,
      0 + (((mvLabels scalar_info combined).take (i + 1)).map List.length).sum,
      mvRowsSum_getElem (mvLabels scalar_info combined) 0 i (Nat.le_of_lt hilt),
      mvRowsSum_getElem (mvLabels scalar_info combined) 0 (i + 1) hilt, ?_⟩
    rw [htake]
    omega
  · intro p part q lab hp hq
    have hplt : p < (mvLabels scalar_info combined).length :=
      (List.getElem?_eq_some.mp hp).1
    have hqlt : q < part.length := (List.getElem?_eq_some.mp hq).1
    have htake : (((mvLabels scalar_info combined).take (p + 1)).map List.length).sum =
        (((mvLabels scalar_info combined).take p).map List.length).sum + part.length := by
      rw [List.take_succ, hp]
      simp
    have hflatq := flatten_getElem_of_part (mvLabels scalar_info combined) p part q lab
      hp hq
    have hlab_lt : lab < rows := by
      have hmem : lab ∈ (mvLabels scalar_info combined).flatten :=
        mem_of_getElem_eq_some hflatq
      exact List.mem_range.mp (hflatperm.mem_iff.mp hmem)
    have hwrite := writeOffsets_getElem_of_nodup
      ((mvLabels scalar_info combined).flatten) 0 (List.replicate rows 0)
      ((((mvLabels scalar_info combined).take p).map List.length).sum + q) lab hnodup
      hflatq (by rw [List.length_replicate]; exact hlab_lt)
    have hgetD : (mvLabelToInternalOffset scalar_info combined rows).getD lab 0 =
        (((mvLabels scalar_info combined).take p).map List.length).sum + q := by
      rw [List.getD_eq_getElem?_getD, mvLabelToInternalOffset, hwrite]
      simp
    refine ⟨0 + (((mvLabels scalar_info combined).take p).map List.length).sum,
      0 + (((mvLabels scalar_info combined).take (p + 1)).map List.length).sum,
      mvRowsSum_getElem (mvLabels scalar_info combined) 0 p (Nat.le_of_lt hplt),
      mvRowsSum_getElem (mvLabels scalar_info combined) 0 (p + 1) hplt, ?_, ?_, ?_, ?_⟩
    · rw [hgetD]; omega
    · rw [hgetD]; omega
    · rw [hgetD, htake]; omega
    · rw [hgetD]
      have hidx : (((mvLabels scalar_info combined).take p).map List.length).sum + q -
          (0 + (((mvLabels scalar_info combined).take p).map List.length).sum) = q := by
        omega
      rw [hidx]
      exact hq

/-- Witness for C1: buckets {0: [1, 2], 1: [0]} combined as the groups
    [[1], [0]] give partitions with labels [[0], [1, 2]],
    index_rows_sum [0, 1, 3] and offsets 1, 2, 0 for labels 1, 2, 0. -/
theorem train_by_scalar_info_invariants_witness :
    (mvRowsSum (mvLabels [[1, 2], [0]] [[1], [0]]) 0).getLast? = some 3 ∧
    (mvLabelToInternalOffset [[1, 2], [0]] [[1], [0]] 3).getD 1 0 = 1 + 0 :=
  ⟨(train_by_scalar_info_invariants [[1, 2], [0]] [[1], [0]] 3 (by decide) (by decide)).2.1,
    by
      obtain ⟨a, b, ha, hb, heq, _, _, _⟩ :=
        (train_by_scalar_info_invariants [[1, 2], [0]] [[1], [0]] 3 (by decide)
          (by decide)).2.2.2 1 [1, 2] 0 1 (by decide) (by decide)
      have ha1 : a = 1 := by
        have : (mvRowsSum (mvLabels [[1, 2], [0]] [[1], [0]]) 0)[1]? = some 1 := by decide
        rw [this] at ha
        injection ha with ha
        omega
      rw [heq, ha1]⟩

end Knowhere
